import Mathlib

/-!
Shallow embedding of the firmware-analysis tools of the repository
(tools/firmware_analysis): the ESP32 partition-table decoder and factory-app
extractor of extract_partition.py, the command-sequence heuristic of
find_init_sequences.py, and the driver-signature, opcode and string scanners
of analyze_tft_config.py.

Bytes are modelled as natural numbers; Python byte strings as List Nat.
Python slicing l[a:b] with nonnegative bounds is (l.drop a).take (b - a),
which clamps exactly as Python does.  Code that can raise (struct.error,
IndexError) is modelled with Option: none stands for a raised exception.
-/

namespace FirmwareAnalysis

/-- Python slice l[a:b] for nonnegative a and b: clamped, never raising. -/
def pySlice (l : List Nat) (a b : Nat) : List Nat := (l.drop a).take (b - a)

/-- Python l[-n:] for positive n: the last n elements (all of l when it is shorter). -/
def pyLastN (n : Nat) (l : List Nat) : List Nat := l.drop (l.length - n)

/-- ASCII lower-casing of one byte, the case folding re.IGNORECASE and
bytes.lower perform on ASCII data. -/
def lowerByte (b : Nat) : Nat := if 65 ≤ b ∧ b ≤ 90 then b + 32 else b

/-- Little-endian value of a byte string: first byte least significant,
as struct.unpack with formats "<H" and "<I" computes it. -/
def readLE (l : List Nat) : Nat := l.foldr (fun b acc => b + 256 * acc) 0

/-- struct.unpack of an n-byte little-endian unsigned field: Python raises
struct.error (here: none) unless the buffer has exactly n bytes. -/
def unpackLE (n : Nat) (l : List Nat) : Option Nat :=
  if l.length = n then some (readLE l) else none

/-- Upper-case hexadecimal digit of a value below 16. -/
def hexDigit (n : Nat) : Char :=
  if n < 10 then Char.ofNat (48 + n) else Char.ofNat (55 + n)

/-- Python format string f"0x\x7bn:02X\x7d" for a byte value. -/
def pyHex02X (n : Nat) : String :=
  "0x" ++ String.mk [hexDigit (n / 16 % 16), hexDigit (n % 16)]

/-- One decoded partition-table entry, the dictionary built by
decode_partition_table in extract_partition.py. -/
structure PartitionRecord where
  label : String
  type : String
  subtype : String
  offset : Nat
  size : Nat
  flags : Nat
deriving DecidableEq, Repr

/-- The type_names lookup of decode_partition_table. -/
def type_names (t : Nat) : Option String :=
  if t = 0x00 then some "app" else if t = 0x01 then some "data" else none

/-- The subtype_names lookup of decode_partition_table (a dict of dicts,
missing outer key giving the empty dict). -/
def subtype_names (t s : Nat) : Option String :=
  if t = 0x00 then
    if s = 0x00 then some "factory"
    else if s = 0x10 then some "ota_0"
    else if s = 0x11 then some "ota_1"
    else if s = 0x20 then some "test"
    else none
  else if t = 0x01 then
    if s = 0x00 then some "ota"
    else if s = 0x01 then some "phy"
    else if s = 0x02 then some "nvs"
    else if s = 0x80 then some "esphttpd"
    else if s = 0x81 then some "fat"
    else if s = 0x82 then some "spiffs"
    else none
  else none

/-- type_names.get(typ, f"0x\x7btyp:02X\x7d"). -/
def typeStr (t : Nat) : String := (type_names t).getD (pyHex02X t)

/-- subtype_names.get(typ, \x7b\x7d).get(subtype, f"0x\x7bsubtype:02X\x7d"). -/
def subtypeStr (t s : Nat) : String := (subtype_names t s).getD (pyHex02X s)

/-- entry_data[12:28].split(b"\x00", 1)[0].decode("ascii", "ignore"): the bytes
before the first NUL, non-ASCII bytes dropped, as a string. -/
def decodeLabel (l : List Nat) : String :=
  String.mk (((l.takeWhile (· ≠ 0)).filter (· < 128)).map Char.ofNat)

/-- The field parsing decode_partition_table performs on one 32-byte slot once
the magic check passed: type and subtype bytes, little-endian offset, size and
flags words, NUL-terminated label.  none models a raised IndexError or
struct.error on a slot shorter than 32 bytes. -/
def parseSlotFields (slot : List Nat) : Option PartitionRecord := do
  let t ← slot.get? 2
  let st ← slot.get? 3
  let offset ← unpackLE 4 (pySlice slot 4 8)
  let size ← unpackLE 4 (pySlice slot 8 12)
  let label := decodeLabel (pySlice slot 12 28)
  let flags ← unpackLE 4 (pySlice slot 28 32)
  pure { label := label, type := typeStr t, subtype := subtypeStr t st,
         offset := offset, size := size, flags := flags }

/-- The stride loop of decode_partition_table, fuel-indexed so that it is
structurally recursive (the fuel is spent one unit per 32-byte stride; callers
pass at least the length of the buffer, which is always enough).  For each
stride: stop with the entries collected so far when the first two bytes are
0xFF 0xFF; raise (none) when struct.unpack of the magic fails (slot of fewer
than 2 bytes); skip the stride when the magic is not 0x50AA; otherwise parse
the fields and prepend the record. -/
def decodeAux : Nat → List Nat → Option (List PartitionRecord)
  | 0, _ => some []
  | _ + 1, [] => some []
  | fuel + 1, b :: rest =>
    let data := b :: rest
    let slot := data.take 32
    if slot.take 2 = [0xFF, 0xFF] then some []
    else
      match unpackLE 2 (slot.take 2) with
      | none => none
      | some magic =>
        if magic ≠ 0x50AA then decodeAux fuel (data.drop 32)
        else
          match parseSlotFields slot with
          | none => none
          | some r => (decodeAux fuel (data.drop 32)).map (r :: ·)

/-- decode_partition_table of extract_partition.py: iterate over the buffer in
32-byte strides.  some l is a normal return of the entries list; none models
the Python call raising (struct.error or IndexError) out of the loop. -/
def decode_partition_table (data : List Nat) : Option (List PartitionRecord) :=
  decodeAux data.length data

/-- The extraction step of main in extract_partition.py: select the first
record whose subtype is "factory" (none models the no-factory-app path, where
nothing is extracted) and return raw[offset : offset + size] - a plain Python
slice, with Python clamping semantics. -/
def extract_factory_app (raw : List Nat) (entries : List PartitionRecord) :
    Option (List Nat) :=
  match entries.find? (fun e => e.subtype = "factory") with
  | none => none
  | some e => some (pySlice raw e.offset (e.offset + e.size))

/-! ## Decoder unfolding lemmas -/

lemma decodeAux_congr : ∀ (f g : Nat) (data : List Nat),
    data.length ≤ 32 * f → data.length ≤ 32 * g →
    decodeAux f data = decodeAux g data := by
  intro f
  induction f with
  | zero =>
    intro g data hf _
    have hd : data = [] := by
      cases data with
      | nil => rfl
      | cons b t => simp [List.length_cons] at hf
    subst hd
    cases g <;> rfl
  | succ f ih =>
    intro g data hf hg
    cases data with
    | nil => cases g <;> rfl
    | cons b rest =>
      cases g with
      | zero => simp [List.length_cons] at hg
      | succ g =>
        have hrec : decodeAux f ((b :: rest).drop 32) =
            decodeAux g ((b :: rest).drop 32) := by
          apply ih
          · simp only [List.length_drop, List.length_cons] at hf ⊢; omega
          · simp only [List.length_drop, List.length_cons] at hg ⊢; omega
        simp only [decodeAux]
        rw [hrec]

lemma decode_nil : decode_partition_table [] = some [] := rfl

/-- One unfolding step of the stride loop, stated on the top-level decoder. -/
lemma decode_cons (b : Nat) (rest : List Nat) :
    decode_partition_table (b :: rest) =
      if ((b :: rest).take 32).take 2 = [0xFF, 0xFF] then some []
      else
        match unpackLE 2 (((b :: rest).take 32).take 2) with
        | none => none
        | some magic =>
          if magic ≠ 0x50AA then decode_partition_table ((b :: rest).drop 32)
          else
            match parseSlotFields ((b :: rest).take 32) with
            | none => none
            | some r => (decode_partition_table ((b :: rest).drop 32)).map (r :: ·) := by
  show decodeAux (rest.length + 1) (b :: rest) = _
  simp only [decodeAux]
  have hrec : decodeAux rest.length ((b :: rest).drop 32) =
      decode_partition_table ((b :: rest).drop 32) := by
    show _ = decodeAux ((b :: rest).drop 32).length _
    apply decodeAux_congr
    · simp only [List.length_drop, List.length_cons]; omega
    · simp only [List.length_drop, List.length_cons]; omega
  rw [hrec]

/-- Scanning stops, returning the entries collected so far, at a slot whose
first two bytes are the 0xFF 0xFF sentinel. -/
lemma decode_sentinel (rest : List Nat) :
    decode_partition_table (0xFF :: 0xFF :: rest) = some [] := by
  rw [decode_cons]
  have h2 : ((0xFF :: 0xFF :: rest).take 32).take 2 = [0xFF, 0xFF] := by
    rw [List.take_take]
    norm_num
  rw [if_pos h2]

/-- A full 32-byte slot that passes the magic check parses successfully. -/
lemma parseSlotFields_isSome (S : List Nat) (h : S.length = 32) :
    ∃ r, parseSlotFields S = some r := by
  have h2 : 2 < S.length := by omega
  have h3 : 3 < S.length := by omega
  have l48 : (pySlice S 4 8).length = 4 := by
    simp only [pySlice, List.length_take, List.length_drop, h]; decide
  have l812 : (pySlice S 8 12).length = 4 := by
    simp only [pySlice, List.length_take, List.length_drop, h]; decide
  have l2832 : (pySlice S 28 32).length = 4 := by
    simp only [pySlice, List.length_take, List.length_drop, h]; decide
  refine ⟨{ label := decodeLabel (pySlice S 12 28), type := typeStr (S.get ⟨2, h2⟩),
            subtype := subtypeStr (S.get ⟨2, h2⟩) (S.get ⟨3, h3⟩),
            offset := readLE (pySlice S 4 8), size := readLE (pySlice S 8 12),
            flags := readLE (pySlice S 28 32) }, ?_⟩
  simp [parseSlotFields, List.getElem?_eq_getElem, h, unpackLE, l48, l812, l2832]

/-- A full 32-byte slot whose magic is neither the constant nor the sentinel
is skipped: decoding continues with the next stride. -/
lemma decode_skip (S rest : List Nat) (h32 : S.length = 32)
    (hs : S.take 2 ≠ [0xFF, 0xFF]) (hm : readLE (S.take 2) ≠ 0x50AA) :
    decode_partition_table (S ++ rest) = decode_partition_table rest := by
  obtain ⟨b, S', rfl⟩ : ∃ b S', S = b :: S' := by
    cases S with
    | nil => simp at h32
    | cons b S' => exact ⟨b, S', rfl⟩
  have happ : (b :: S') ++ rest = b :: (S' ++ rest) := rfl
  rw [happ, decode_cons]
  have htake : (b :: (S' ++ rest)).take 32 = b :: S' := by
    rw [← happ, List.take_append_of_le_length (by omega), List.take_of_length_le (by omega)]
  rw [htake, if_neg hs]
  have hlen2 : ((b :: S').take 2).length = 2 := by
    simp only [List.length_take, h32]; decide
  rw [unpackLE, if_pos hlen2]
  have hdrop : (b :: (S' ++ rest)).drop 32 = rest := by
    rw [← happ, List.drop_append_of_le_length (by omega), ← h32, List.drop_length,
      List.nil_append]
  simp only [hdrop, if_pos hm]

/-- A full 32-byte slot whose magic equals 0x50AA contributes its parsed
record and decoding continues with the next stride. -/
lemma decode_valid (S rest : List Nat) (h32 : S.length = 32)
    (hm : readLE (S.take 2) = 0x50AA) :
    ∃ r, parseSlotFields S = some r ∧
      decode_partition_table (S ++ rest) =
        (decode_partition_table rest).map (r :: ·) := by
  obtain ⟨r, hr⟩ := parseSlotFields_isSome S h32
  refine ⟨r, hr, ?_⟩
  obtain ⟨b, S', rfl⟩ : ∃ b S', S = b :: S' := by
    cases S with
    | nil => simp at h32
    | cons b S' => exact ⟨b, S', rfl⟩
  have hs : (b :: S').take 2 ≠ [0xFF, 0xFF] := by
    intro hcontra
    rw [hcontra] at hm
    exact absurd hm (by decide)
  have happ : (b :: S') ++ rest = b :: (S' ++ rest) := rfl
  rw [happ, decode_cons]
  have htake : (b :: (S' ++ rest)).take 32 = b :: S' := by
    rw [← happ, List.take_append_of_le_length (by omega), List.take_of_length_le (by omega)]
  rw [htake, if_neg hs]
  have hlen2 : ((b :: S').take 2).length = 2 := by
    simp only [List.length_take, h32]; decide
  rw [unpackLE, if_pos hlen2]
  have hdrop : (b :: (S' ++ rest)).drop 32 = rest := by
    rw [← happ, List.drop_append_of_le_length (by omega), ← h32, List.drop_length,
      List.nil_append]
  simp only [hdrop, hr]
  rw [if_neg (not_not_intro hm)]

/-- A list whose first two elements are known is a double cons. -/
lemma eq_cons_cons_of_take_two {l : List Nat} {x y : Nat} (h : l.take 2 = [x, y]) :
    ∃ t, l = x :: y :: t := by
  cases l with
  | nil => simp at h
  | cons a t1 =>
    cases t1 with
    | nil => simp at h
    | cons c t2 =>
      simp only [List.take_succ_cons, List.take_zero, List.cons.injEq, and_true] at h
      exact ⟨t2, by rw [h.1, h.2]⟩

/-- On a buffer made of full 32-byte strides the decoder never raises. -/
lemma decode_total_of_dvd : ∀ (n : Nat) (data : List Nat), data.length = n →
    32 ∣ n → ∃ l, decode_partition_table data = some l := by
  intro n
  induction n using Nat.strong_induction_on with
  | _ n ih =>
    intro data hlen hdvd
    cases data with
    | nil => exact ⟨[], rfl⟩
    | cons b rest =>
      have hpos : 0 < n := by rw [← hlen]; simp
      have h32le : 32 ≤ n := Nat.le_of_dvd hpos hdvd
      set S := (b :: rest).take 32 with hS
      have hSlen : S.length = 32 := by
        simp only [hS, List.length_take]; omega
      have hsplit : (b :: rest) = S ++ (b :: rest).drop 32 :=
        (List.take_append_drop 32 _).symm
      have hdl : ((b :: rest).drop 32).length = n - 32 := by
        simp only [List.length_drop, hlen]
      obtain ⟨l, hl⟩ := ih (n - 32) (by omega) ((b :: rest).drop 32) hdl
        (Nat.dvd_sub' hdvd ⟨1, rfl⟩)
      by_cases hsent : S.take 2 = [0xFF, 0xFF]
      · obtain ⟨t, hSt⟩ := eq_cons_cons_of_take_two hsent
        refine ⟨[], ?_⟩
        rw [hsplit, hSt]
        exact decode_sentinel _
      · by_cases hmagic : readLE (S.take 2) = 0x50AA
        · obtain ⟨r, _, heq⟩ := decode_valid S ((b :: rest).drop 32) hSlen hmagic
          refine ⟨r :: l, ?_⟩
          rw [hsplit, heq, hl]
          rfl
        · refine ⟨l, ?_⟩
          rw [hsplit, decode_skip S _ hSlen hsent hmagic, hl]

/-- Appending a partial trailing slot that is empty, a sentinel, or a
well-formed-magic-free fragment of at least two bytes does not change the
decode result of a stride-aligned buffer. -/
lemma decode_append_partial : ∀ (n : Nat) (data trail : List Nat),
    data.length = n → 32 ∣ n → trail.length < 32 →
    (trail = [] ∨ trail.take 2 = [0xFF, 0xFF] ∨
      (2 ≤ trail.length ∧ readLE (trail.take 2) ≠ 0x50AA)) →
    decode_partition_table (data ++ trail) = decode_partition_table data := by
  intro n
  induction n using Nat.strong_induction_on with
  | _ n ih =>
    intro data trail hlen hdvd htl hcase
    cases data with
    | nil =>
      simp only [List.nil_append]
      rcases hcase with rfl | hsent | ⟨h2, hmag⟩
      · rfl
      · obtain ⟨t, rfl⟩ := eq_cons_cons_of_take_two hsent
        exact decode_sentinel t
      · cases trail with
        | nil => rfl
        | cons b t =>
          rw [decode_cons]
          have htake : (b :: t).take 32 = b :: t :=
            List.take_of_length_le (by omega)
          rw [htake]
          by_cases hs : (b :: t).take 2 = [0xFF, 0xFF]
          · rw [if_pos hs]
            exact decode_nil.symm
          · rw [if_neg hs]
            have hlen2 : ((b :: t).take 2).length = 2 := by
              simp only [List.length_take]; omega
            rw [unpackLE, if_pos hlen2]
            have hdropnil : (b :: t).drop 32 = [] := by
              apply List.drop_eq_nil_of_le
              omega
            simp only [if_pos hmag, hdropnil]
    | cons b rest =>
      have hpos : 0 < n := by rw [← hlen]; simp
      have h32le : 32 ≤ n := Nat.le_of_dvd hpos hdvd
      set S := (b :: rest).take 32 with hS
      have hSlen : S.length = 32 := by
        simp only [hS, List.length_take]; omega
      have hsplit : (b :: rest) = S ++ (b :: rest).drop 32 :=
        (List.take_append_drop 32 _).symm
      have hdl : ((b :: rest).drop 32).length = n - 32 := by
        simp only [List.length_drop, hlen]
      have hih := ih (n - 32) (by omega) ((b :: rest).drop 32) trail hdl
        (Nat.dvd_sub' hdvd ⟨1, rfl⟩) htl hcase
      by_cases hsent : S.take 2 = [0xFF, 0xFF]
      · obtain ⟨t, hSt⟩ := eq_cons_cons_of_take_two hsent
        rw [hsplit, hSt, List.append_assoc]
        simp only [List.cons_append]
        rw [decode_sentinel, decode_sentinel]
      · by_cases hmagic : readLE (S.take 2) = 0x50AA
        · obtain ⟨r, hr, heq⟩ := decode_valid S ((b :: rest).drop 32 ++ trail) hSlen hmagic
          obtain ⟨r2, hr2, heq2⟩ := decode_valid S ((b :: rest).drop 32) hSlen hmagic
          have hrr : r = r2 := by
            rw [hr] at hr2
            exact Option.some.inj hr2
          rw [hsplit, List.append_assoc, heq, heq2, hih, hrr]
        · rw [hsplit, List.append_assoc,
            decode_skip S _ hSlen hsent hmagic, decode_skip S _ hSlen hsent hmagic, hih]

/-- A concrete well-formed partition-table slot: magic 0x50AA, type app,
subtype factory, offset 64, size 36, label "factory", flags 0. -/
def exampleSlot : List Nat :=
  [0xAA, 0x50, 0x00, 0x00, 64, 0, 0, 0, 36, 0, 0, 0,
   102, 97, 99, 116, 111, 114, 121, 0, 0, 0, 0, 0, 0, 0, 0, 0, 0, 0, 0, 0]

/-! ## Claim theorems for the partition extractor (extract_partition.py) -/

/-- C1 (code bug demonstration).  The claim requires an out-of-range
extraction to surface an explicit error, never a silently clamped slice.  The
code slices with plain Python semantics: on a 10-byte flash image and a
factory record with offset 4 and size 20 (range [4, 24) exceeding the
bounds), the extractor returns a silently clamped 6-byte slice, not an
error.  The in-bounds half of the claim does hold (size-6 record at
offset 4 yields exactly 6 bytes), and a predicate matching no record is
reported as NotFound (none). -/
theorem C1_out_of_range_is_silently_clamped :
    extract_factory_app (List.replicate 10 7)
        [{ label := "factory", type := "app", subtype := "factory",
           offset := 4, size := 20, flags := 0 }] = some (List.replicate 6 7)
  ∧ (List.replicate 10 7).length < 4 + 20
  ∧ (List.replicate 6 7).length ≠ 20
  ∧ extract_factory_app (List.replicate 10 7)
        [{ label := "factory", type := "app", subtype := "factory",
           offset := 4, size := 6, flags := 0 }] = some (List.replicate 6 7)
  ∧ extract_factory_app (List.replicate 10 7) [] = none := by
  decide

/-- C2 (counterexample).  The decoder does not degrade gracefully on every
malformed input: a buffer consisting of a single byte is a partial trailing
slot that IS inspected, and struct.unpack of its magic raises struct.error
(modelled by none). -/
theorem C2_counterexample_one_byte_raises :
    decode_partition_table [0x00] = none := by decide

/-- C2 (amended).  The decoder returns a list without error on every buffer
made of full 32-byte strides; a partial trailing slot is inspected, and is
harmless only when it is empty, starts with the sentinel, or holds at least
two bytes whose little-endian value is not the magic 0x50AA.  A trailing slot
of one byte raises (struct.error on the magic), as does a partial slot whose
magic is valid (struct.error on a later field). -/
theorem C2_partial_trailing_slot_behaviour :
    (∀ data : List Nat, 32 ∣ data.length →
      ∃ l, decode_partition_table data = some l)
  ∧ (∀ data trail : List Nat, 32 ∣ data.length → trail.length < 32 →
      (trail = [] ∨ trail.take 2 = [0xFF, 0xFF] ∨
        (2 ≤ trail.length ∧ readLE (trail.take 2) ≠ 0x50AA)) →
      decode_partition_table (data ++ trail) = decode_partition_table data)
  ∧ decode_partition_table [0x00] = none
  ∧ decode_partition_table (0xAA :: 0x50 :: List.replicate 29 0) = none := by
  refine ⟨fun data h => decode_total_of_dvd data.length data rfl h,
          fun data trail h1 h2 h3 =>
            decode_append_partial data.length data trail rfl h1 h2 h3,
          by decide, by decide⟩

/-- Witness for C2: concrete instances of both universally quantified parts. -/
theorem C2_partial_trailing_slot_behaviour_witness :
    (∃ l, decode_partition_table (List.replicate 32 0) = some l)
  ∧ decode_partition_table (List.replicate 32 0 ++ [0, 0]) =
      decode_partition_table (List.replicate 32 0) :=
  ⟨C2_partial_trailing_slot_behaviour.1 (List.replicate 32 0) (by decide),
   C2_partial_trailing_slot_behaviour.2.1 (List.replicate 32 0) [0, 0]
     (by decide) (by decide) (by decide)⟩

/-- C5.  Scanning stops at the first slot whose first two bytes are 0xFF
0xFF: a table of k well-formed record slots followed by the sentinel decodes
to exactly k records, and the result does not depend on any byte beyond the
sentinel stride (the right-hand side never mentions rest). -/
theorem C5_sentinel_stops_at_stride_k :
    ∀ (slots : List (List Nat)) (rest : List Nat),
      (∀ S ∈ slots, S.length = 32 ∧ readLE (S.take 2) = 0x50AA) →
      decode_partition_table (slots.flatten ++ 0xFF :: 0xFF :: rest) =
          some (slots.filterMap parseSlotFields)
        ∧ (slots.filterMap parseSlotFields).length = slots.length := by
  intro slots
  induction slots with
  | nil =>
    intro rest _
    refine ⟨?_, rfl⟩
    simpa using decode_sentinel rest
  | cons S slots ih =>
    intro rest h
    have hS := h S (by simp)
    obtain ⟨r, hr, heq⟩ :=
      decode_valid S (slots.flatten ++ 0xFF :: 0xFF :: rest) hS.1 hS.2
    obtain ⟨ih1, ih2⟩ := ih rest (fun T hT => h T (by simp [hT]))
    constructor
    · rw [show (S :: slots).flatten ++ 0xFF :: 0xFF :: rest =
          S ++ (slots.flatten ++ 0xFF :: 0xFF :: rest) by
        simp [List.flatten_cons, List.append_assoc]]
      rw [heq, ih1]
      simp [List.filterMap_cons, hr]
    · simp only [List.filterMap_cons, hr, List.length_cons, ih2]

/-- Witness for C5: one valid factory slot, then the sentinel, then a stray
byte; the decode yields exactly one record and ignores the stray byte. -/
theorem C5_sentinel_stops_at_stride_k_witness :
    decode_partition_table ([exampleSlot].flatten ++ 0xFF :: 0xFF :: [9]) =
        some ([exampleSlot].filterMap parseSlotFields)
      ∧ ([exampleSlot].filterMap parseSlotFields).length = [exampleSlot].length :=
  C5_sentinel_stops_at_stride_k [exampleSlot] [9] (by decide)

/-- C6.  A full 32-byte stride whose first two bytes are neither the sentinel
nor (as a little-endian u16) the magic 0x50AA is silently skipped and
decoding continues with the following strides; a sentinel at stride 0 yields
the empty list; a table whose every stride fails the magic check decodes to
the empty list, not an error. -/
theorem C6_invalid_magic_stride_skipped :
    (∀ S rest : List Nat, S.length = 32 → S.take 2 ≠ [0xFF, 0xFF] →
      readLE (S.take 2) ≠ 0x50AA →
      decode_partition_table (S ++ rest) = decode_partition_table rest)
  ∧ (∀ rest : List Nat, decode_partition_table (0xFF :: 0xFF :: rest) = some [])
  ∧ (∀ badSlots : List (List Nat),
      (∀ S ∈ badSlots, S.length = 32 ∧ S.take 2 ≠ [0xFF, 0xFF] ∧
        readLE (S.take 2) ≠ 0x50AA) →
      decode_partition_table badSlots.flatten = some []) := by
  refine ⟨decode_skip, decode_sentinel, ?_⟩
  intro L hL
  induction L with
  | nil => rfl
  | cons S L ih =>
    have hS := hL S (by simp)
    rw [List.flatten_cons, decode_skip S L.flatten hS.1 hS.2.1 hS.2.2]
    exact ih (fun T hT => hL T (by simp [hT]))

/-- Witness for C6: a skipped all-zero stride before a sentinel, and a
zero-record table. -/
theorem C6_invalid_magic_stride_skipped_witness :
    decode_partition_table (List.replicate 32 0 ++ [0xFF, 0xFF]) =
        decode_partition_table [0xFF, 0xFF]
  ∧ decode_partition_table [List.replicate 32 0].flatten = some [] :=
  ⟨C6_invalid_magic_stride_skipped.1 (List.replicate 32 0) [0xFF, 0xFF]
      (by decide) (by decide) (by decide),
   C6_invalid_magic_stride_skipped.2.2 [List.replicate 32 0] (by decide)⟩

/-! ## find_init_sequences.py -/

/-- One match of find_command_sequences: the dictionary with keys offset,
before and after appended to the matches list. -/
structure SeqMatch where
  offset : Nat
  before : List Nat
  after : List Nat
deriving DecidableEq, Repr

/-- context_after = data[i + 1 : min(len(data), i + 20)]. -/
def seqContextAfter (data : List Nat) (i : Nat) : List Nat :=
  pySlice data (i + 1) (min data.length (i + 20))

/-- context_before = data[max(0, i - 10) : i] (natural subtraction is the
max with zero). -/
def seqContextBefore (data : List Nat) (i : Nat) : List Nat :=
  pySlice data (i - 10) i

/-- The per-byte test of the candidate heuristic: b in nearby_cmds or b < 10. -/
def seqHit (nearby_cmds : List Nat) (b : Nat) : Bool :=
  nearby_cmds.contains b || decide (b < 10)

/-- find_command_sequences of find_init_sequences.py (its name argument is
unused by the Python code and omitted here): for every position i with
data[i] == cmd_byte, classify i as a candidate when any of the first five
bytes of context_after is in nearby_cmds or below 10, and record the offset
together with context_before[-10:] and context_after[:15]. -/
def find_command_sequences (data : List Nat) (cmd_byte : Nat)
    (nearby_cmds : List Nat) : List SeqMatch :=
  (List.range data.length).filterMap fun i =>
    if data.getD i 0 = cmd_byte then
      if ((seqContextAfter data i).take 5).any (seqHit nearby_cmds) then
        some { offset := i, before := pyLastN 10 (seqContextBefore data i),
               after := (seqContextAfter data i).take 15 }
      else none
    else none

/-- Taking at most 19 context bytes commutes with dropping the window bound:
the clamped context window, cut to k ≤ 19 bytes, is just the first k bytes
after the occurrence. -/
lemma seqContextAfter_take (data : List Nat) (i k : Nat) (hk : k ≤ 19) :
    (seqContextAfter data i).take k = (data.drop (i + 1)).take k := by
  rw [seqContextAfter, pySlice, List.take_take, List.take_eq_take]
  simp only [List.length_drop]
  omega

/-- The stored before-window is exactly the up-to-ten preceding bytes. -/
lemma seqBefore_eq (data : List Nat) (i : Nat) :
    pyLastN 10 (seqContextBefore data i) = (data.take i).drop (i - 10) := by
  rw [List.drop_take, pyLastN, seqContextBefore, pySlice]
  have hlen : ((data.drop (i - 10)).take (i - (i - 10))).length - 10 = 0 := by
    simp only [List.length_take, List.length_drop]
    omega
  rw [hlen, List.drop_zero]

/-- Membership characterization of find_command_sequences. -/
lemma mem_find_command_sequences {data : List Nat} {cmd : Nat} {nb : List Nat}
    {m : SeqMatch} :
    m ∈ find_command_sequences data cmd nb ↔
      m.offset < data.length ∧ data.getD m.offset 0 = cmd ∧
      ((data.drop (m.offset + 1)).take 5).any (seqHit nb) = true ∧
      m.before = (data.take m.offset).drop (m.offset - 10) ∧
      m.after = (data.drop (m.offset + 1)).take 15 := by
  unfold find_command_sequences
  rw [List.mem_filterMap]
  constructor
  · rintro ⟨i, hi, hf⟩
    rw [List.mem_range] at hi
    by_cases h1 : data.getD i 0 = cmd
    · by_cases h2 : ((seqContextAfter data i).take 5).any (seqHit nb) = true
      · rw [if_pos h1, if_pos h2] at hf
        obtain rfl := Option.some.inj hf
        refine ⟨hi, h1, ?_, ?_, ?_⟩
        · rw [← seqContextAfter_take data i 5 (by omega)]
          exact h2
        · exact seqBefore_eq data i
        · exact seqContextAfter_take data i 15 (by omega)
      · rw [if_pos h1, if_neg h2] at hf
        exact absurd hf (by simp)
    · rw [if_neg h1] at hf
      exact absurd hf (by simp)
  · rintro ⟨h1, h2, h3, h4, h5⟩
    refine ⟨m.offset, List.mem_range.mpr h1, ?_⟩
    rw [if_pos h2, if_pos (by rw [seqContextAfter_take data m.offset 5 (by omega)]; exact h3)]
    have hb : pyLastN 10 (seqContextBefore data m.offset) = m.before := by
      rw [seqBefore_eq, h4]
    have ha : (seqContextAfter data m.offset).take 15 = m.after := by
      rw [seqContextAfter_take data m.offset 15 (by omega), h5]
    rw [hb, ha]

/-- A produced option at index i carries offset i. -/
lemma find_cs_offset {data : List Nat} {cmd : Nat} {nb : List Nat}
    {i : Nat} {m : SeqMatch}
    (h : (if data.getD i 0 = cmd then
            if ((seqContextAfter data i).take 5).any (seqHit nb) then
              some { offset := i, before := pyLastN 10 (seqContextBefore data i),
                     after := (seqContextAfter data i).take 15 }
            else none
          else none) = some m) : m.offset = i := by
  by_cases h1 : data.getD i 0 = cmd
  · by_cases h2 : ((seqContextAfter data i).take 5).any (seqHit nb) = true
    · rw [if_pos h1, if_pos h2] at h
      obtain rfl := Option.some.inj h
      rfl
    · rw [if_pos h1, if_neg h2] at h
      exact absurd h (by simp)
  · rw [if_neg h1] at h
    exact absurd h (by simp)

lemma seqHit_iff (nb : List Nat) (b : Nat) :
    seqHit nb b = true ↔ b ∈ nb ∨ b < 10 := by
  simp [seqHit]

/-- C3 (amended).  Every returned site carries its offset, the full window of
up to 10 preceding bytes, and only the FIRST 15 of the following bytes (the
code builds context_after from at most 19 bytes and stores
context_after[:15]); sites are listed in ascending offset order. -/
theorem C3_windows_and_ascending_order :
    ∀ (data : List Nat) (cmd : Nat) (nearby : List Nat),
      (find_command_sequences data cmd nearby).Pairwise
          (fun m n => m.offset < n.offset)
      ∧ ∀ m ∈ find_command_sequences data cmd nearby,
          m.before = (data.take m.offset).drop (m.offset - 10) ∧
          m.before.length = min m.offset 10 ∧
          m.after = (data.drop (m.offset + 1)).take 15 ∧
          m.after.length = min (data.length - (m.offset + 1)) 15 := by
  intro data cmd nb
  constructor
  · rw [find_command_sequences, List.pairwise_filterMap]
    refine List.Pairwise.imp ?_ (List.pairwise_lt_range _)
    intro i j hij x hx y hy
    rw [Option.mem_def] at hx hy
    rw [find_cs_offset hx, find_cs_offset hy]
    exact hij
  · intro m hm
    obtain ⟨h1, _, _, h4, h5⟩ := mem_find_command_sequences.mp hm
    refine ⟨h4, ?_, h5, ?_⟩
    · rw [h4]
      simp only [List.length_drop, List.length_take]
      omega
    · rw [h5]
      simp only [List.length_take, List.length_drop]
      omega

/-- C3 (counterexample).  On a buffer with one occurrence of 0x11 followed by
25 bytes, the site the claim describes should carry a full 20-byte following
window, but the returned after-window holds only 15 bytes. -/
theorem C3_counterexample_after_window_truncated :
    ((find_command_sequences (0x11 :: List.replicate 25 0) 0x11 []).map
        (fun m => m.after.length)) = [15]
  ∧ (((0x11 :: List.replicate 25 0).drop 1).take 20).length = 20 := by
  decide

/-- C4.  An occurrence of the target opcode is a candidate command-sequence
site exactly when one of the first five following bytes is in the reference
opcode set or is below 10; a following byte 5 makes a candidate, five
following bytes all at least 10 and outside the set exclude the occurrence. -/
theorem C4_candidate_classification :
    ∀ (data : List Nat) (cmd : Nat) (nearby : List Nat) (i : Nat),
      ((∃ m ∈ find_command_sequences data cmd nearby, m.offset = i) ↔
        (i < data.length ∧ data.getD i 0 = cmd ∧
          ∃ b ∈ (data.drop (i + 1)).take 5, b ∈ nearby ∨ b < 10))
    ∧ (find_command_sequences [0x11, 5, 20, 20, 20, 20] 0x11 []).map
        (fun m => m.offset) = [0]
    ∧ find_command_sequences [0x11, 20, 20, 20, 20, 20] 0x11 [] = [] := by
  intro data cmd nb i
  refine ⟨?_, by decide, by decide⟩
  constructor
  · rintro ⟨m, hm, rfl⟩
    obtain ⟨h1, h2, h3, -, -⟩ := mem_find_command_sequences.mp hm
    refine ⟨h1, h2, ?_⟩
    rw [List.any_eq_true] at h3
    obtain ⟨b, hb, hb2⟩ := h3
    exact ⟨b, hb, (seqHit_iff nb b).mp hb2⟩
  · rintro ⟨h1, h2, ⟨b, hb, hb2⟩⟩
    refine ⟨{ offset := i, before := (data.take i).drop (i - 10),
              after := (data.drop (i + 1)).take 15 }, ?_, rfl⟩
    rw [mem_find_command_sequences]
    refine ⟨h1, h2, ?_, rfl, rfl⟩
    rw [List.any_eq_true]
    exact ⟨b, hb, (seqHit_iff nb b).mpr hb2⟩

/-- C10.  The candidate test reads only following bytes that exist: the
tested window is the (clamped) first five bytes after the occurrence, and an
occurrence at the final byte position - with no following bytes - is never a
candidate (a one-byte buffer consisting of the target opcode produces no
match). -/
theorem C10_window_reads_only_existing_bytes :
    ∀ (data : List Nat) (cmd : Nat) (nearby : List Nat),
      (∀ m ∈ find_command_sequences data cmd nearby, m.offset + 1 < data.length)
      ∧ (∀ i : Nat, (seqContextAfter data i).take 5 = (data.drop (i + 1)).take 5 ∧
          ((data.drop (i + 1)).take 5).length = min (data.length - (i + 1)) 5)
      ∧ (∀ b : Nat, find_command_sequences [b] b nearby = []) := by
  intro data cmd nb
  refine ⟨?_, ?_, ?_⟩
  · intro m hm
    obtain ⟨-, -, h3, -, -⟩ := mem_find_command_sequences.mp hm
    rw [List.any_eq_true] at h3
    obtain ⟨b, hb, -⟩ := h3
    have hne : (data.drop (m.offset + 1)).take 5 ≠ [] := by
      intro he
      rw [he] at hb
      exact absurd hb (List.not_mem_nil b)
    have hlen : 0 < ((data.drop (m.offset + 1)).take 5).length :=
      List.length_pos.mpr hne
    simp only [List.length_take, List.length_drop] at hlen
    omega
  · intro i
    refine ⟨seqContextAfter_take data i 5 (by omega), ?_⟩
    simp only [List.length_take, List.length_drop]
    omega
  · intro b
    have hr : List.range ([b].length) = [0] := rfl
    rw [find_command_sequences, hr]
    simp [seqContextAfter, pySlice]

/-! ## analyze_tft_config.py -/

/-- The bytes of an ASCII string, as driver.encode("ascii") produces them. -/
def asciiBytes (s : String) : List Nat := s.toList.map Char.toNat

/-- The fixed opcode table ili_commands of search_init_commands. -/
def ili_commands : List (Nat × String) :=
  [(0x11, "Sleep Out"), (0x29, "Display On"), (0x36, "Memory Access Control"),
   (0x3A, "Pixel Format Set"), (0xB1, "Frame Rate Control"),
   (0xB6, "Display Function Control"), (0xC0, "Power Control 1"),
   (0xC1, "Power Control 2"), (0xC5, "VCOM Control"),
   (0xE0, "Positive Gamma"), (0xE1, "Negative Gamma")]

/-- search_init_commands of analyze_tft_config.py: for each opcode of the
table, count raw occurrences of that byte (data.count of a one-byte
sequence) and keep the opcodes with positive count, in table order. -/
def search_init_commands (data : List Nat) : List (Nat × String × Nat) :=
  ili_commands.filterMap fun cn =>
    let count := data.count cn.1
    if 0 < count then some (cn.1, cn.2, count) else none

/-- Counting a value is counting the positions that hold it. -/
lemma count_eq_positions (c : Nat) : ∀ l : List Nat,
    l.count c =
      ((List.range l.length).filter (fun i => l.getD i (c + 1) = c)).length := by
  intro l
  induction l with
  | nil => rfl
  | cons b t ih =>
    rw [List.length_cons, List.range_succ_eq_map, List.filter_cons, List.filter_map]
    simp only [Function.comp_def, List.getD_cons_succ, List.getD_cons_zero,
      List.count_cons, List.length_map]
    by_cases hbc : b = c
    · simp [hbc, ih]
    · simp [hbc, ih]

/-- C8.  find_opcodes reports, for each opcode of the fixed table, the raw
number of buffer positions holding that byte value (no positional
filtering), omitting zero counts; on b"\x11\x11\x29" it reports 2 for 0x11
and 1 for 0x29. -/
theorem C8_opcode_counts :
    ∀ (data : List Nat) (cmd : Nat) (nm : String) (k : Nat),
      (((cmd, nm, k) ∈ search_init_commands data ↔
          (cmd, nm) ∈ ili_commands ∧ k = data.count cmd ∧ 0 < k)
        ∧ data.count cmd =
            ((List.range data.length).filter
              (fun i => data.getD i (cmd + 1) = cmd)).length)
    ∧ search_init_commands [0x11, 0x11, 0x29] =
        [(0x11, "Sleep Out", 2), (0x29, "Display On", 1)] := by
  intro data cmd nm k
  refine ⟨⟨?_, count_eq_positions cmd data⟩, by decide⟩
  rw [search_init_commands, List.mem_filterMap]
  constructor
  · rintro ⟨⟨c2, n2⟩, hmem, hf⟩
    simp only at hf
    by_cases hc : 0 < data.count c2
    · rw [if_pos hc] at hf
      simp only [Option.some.injEq, Prod.mk.injEq] at hf
      obtain ⟨rfl, rfl, rfl⟩ := hf
      exact ⟨hmem, rfl, hc⟩
    · rw [if_neg hc] at hf
      exact absurd hf (by simp)
  · rintro ⟨hmem, rfl, hk⟩
    exact ⟨(cmd, nm), hmem, by simp only; rw [if_pos hk]⟩

/-- The fixed driver signature list of search_drivers. -/
def drivers : List String :=
  ["ILI9341", "ILI9488", "ST7789", "ST7735", "ILI9163", "GC9A01", "ST7796",
   "HX8357D"]

/-- The scanning count of re.finditer on a literal pattern: at each position
try to match; on a match continue after its end (matches are
non-overlapping), otherwise advance one byte.  Fuel-indexed for structural
recursion; callers pass the length of the buffer, which is always enough for
a nonempty pattern. -/
def reCountAux (p : List Nat) : Nat → List Nat → Nat
  | 0, _ => 0
  | _ + 1, [] => 0
  | fuel + 1, b :: t =>
    if p.isPrefixOf (b :: t) then reCountAux p fuel (t.drop (p.length - 1)) + 1
    else reCountAux p fuel t

/-- len(re.findall-style finditer matches) of pattern p over buffer s with
re.IGNORECASE: both sides are ASCII-lower-cased before matching. -/
def reCountCI (p s : List Nat) : Nat :=
  reCountAux (p.map lowerByte) s.length (s.map lowerByte)

/-- search_drivers of analyze_tft_config.py: for every driver name of the
fixed list, the number of case-insensitive finditer matches of its ASCII
bytes in the buffer; drivers with zero matches are omitted. -/
def search_drivers (data : List Nat) : List (String × Nat) :=
  drivers.filterMap fun d =>
    let count := reCountCI (asciiBytes d) data
    if 0 < count then some (d, count) else none

/-- The count the spec describes: occurrences counted independently at each
start position (one per suffix of s that the pattern starts). -/
def occCountAt (p : List Nat) : List Nat → Nat
  | [] => 0
  | b :: t => (if p.isPrefixOf (b :: t) then 1 else 0) + occCountAt p t

/-- Case-insensitive per-start-position occurrence count. -/
def ciOccCount (p s : List Nat) : Nat :=
  occCountAt (p.map lowerByte) (s.map lowerByte)

/-- A pattern with no nontrivial border: no proper nonempty prefix is also a
suffix.  Such a pattern cannot overlap itself, so non-overlapping and
per-position counts agree. -/
def borderFree (p : List Nat) : Prop :=
  ∀ k < p.length, 0 < k → p.take k ≠ p.drop (p.length - k)

instance borderFree.instDecidable (p : List Nat) : Decidable (borderFree p) := by
  unfold borderFree
  infer_instance

/-- Two matches of a border-free pattern cannot overlap. -/
lemma borderFree_no_overlap {p s : List Nat} (hbf : borderFree p)
    (hp : p.isPrefixOf s) {j : Nat} (h0 : 0 < j) (hj : j < p.length) :
    ¬ p.isPrefixOf (s.drop j) := by
  intro hp2
  rw [List.isPrefixOf_iff_prefix] at hp hp2
  obtain ⟨u, hu⟩ := hp
  have hdrop : s.drop j = p.drop j ++ u := by
    rw [← hu, List.drop_append_of_le_length (by omega)]
  rw [hdrop] at hp2
  obtain ⟨v, hv⟩ := hp2
  have h1 : (p ++ v).take (p.length - j) = p.take (p.length - j) :=
    List.take_append_of_le_length (by omega)
  have h2 : (p.drop j ++ u).take (p.length - j) = p.drop j := by
    rw [List.take_append_of_le_length (by simp [List.length_drop]),
      List.take_of_length_le (by simp [List.length_drop])]
  have heq : p.take (p.length - j) = p.drop j := by
    rw [← h1, hv, h2]
  have hk := hbf (p.length - j) (by omega) (by omega)
  rw [show p.length - (p.length - j) = j from by omega] at hk
  exact hk heq

/-- Positions without a match can be skipped without changing the count. -/
lemma occCountAt_drop_succ {p s : List Nat} {j : Nat}
    (h : ¬ p.isPrefixOf (s.drop j)) :
    occCountAt p (s.drop j) = occCountAt p (s.drop (j + 1)) := by
  cases hsd : s.drop j with
  | nil =>
    have : s.drop (j + 1) = [] := by
      have hle : s.length ≤ j := by
        rw [← List.drop_eq_nil_iff, hsd]
      rw [List.drop_eq_nil_iff]
      omega
    rw [this]
  | cons c r =>
    have hr : s.drop (j + 1) = r := by
      have : s.drop (j + 1) = (s.drop j).drop 1 := by
        rw [List.drop_drop, Nat.add_comm]
      rw [this, hsd, List.drop_one, List.tail_cons]
    rw [hsd] at h
    rw [hr, occCountAt, if_neg h, Nat.zero_add]

/-- Iterated skipping over a match-free window. -/
lemma occCountAt_drop_of_no_match {p s : List Nat} {m : Nat} (hm : 0 < m)
    (h : ∀ j, 0 < j → j < m → ¬ p.isPrefixOf (s.drop j)) :
    occCountAt p (s.drop 1) = occCountAt p (s.drop m) := by
  induction m with
  | zero => omega
  | succ m ih =>
    rcases Nat.eq_zero_or_pos m with rfl | hmpos
    · rfl
    · rw [ih hmpos (fun j h0 hj => h j h0 (by omega))]
      exact occCountAt_drop_succ (h m hmpos (by omega))

/-- For a nonempty border-free pattern the finditer scan count equals the
per-start-position count. -/
lemma reCountAux_eq_occCountAt {p : List Nat} (hbf : borderFree p)
    (hp : p ≠ []) :
    ∀ (n : Nat) (s : List Nat), s.length ≤ n →
      reCountAux p n s = occCountAt p s := by
  intro n
  induction n with
  | zero =>
    intro s hs
    have : s = [] := by
      cases s with
      | nil => rfl
      | cons b t => simp at hs
    subst this
    rfl
  | succ n ih =>
    intro s hs
    cases s with
    | nil => rfl
    | cons b t =>
      have hplen : 0 < p.length := List.length_pos.mpr hp
      by_cases hm : p.isPrefixOf (b :: t)
      · rw [show reCountAux p (n + 1) (b :: t) =
            reCountAux p n (t.drop (p.length - 1)) + 1 from by
          simp only [reCountAux, if_pos hm]]
        have hdropeq : t.drop (p.length - 1) = (b :: t).drop p.length := by
          rw [show p.length = (p.length - 1) + 1 from by omega]
          rfl
        rw [ih _ (by simp only [List.length_drop, List.length_cons] at hs ⊢; omega)]
        have hwin := occCountAt_drop_of_no_match (p := p) (s := b :: t) hplen
          (fun j h0 hj => borderFree_no_overlap hbf hm h0 hj)
        rw [List.drop_one, List.tail_cons] at hwin
        rw [occCountAt, if_pos hm, hdropeq, ← hwin]
        omega
      · rw [show reCountAux p (n + 1) (b :: t) = reCountAux p n t from by
          simp only [reCountAux, if_neg hm]]
        rw [ih t (by simp only [List.length_cons] at hs; omega)]
        rw [occCountAt, if_neg hm, Nat.zero_add]

/-- The bridge instantiated at lower-cased data. -/
lemma reCountCI_eq_ciOccCount {p : List Nat}
    (hbf : borderFree (p.map lowerByte)) (hp : p ≠ []) (s : List Nat) :
    reCountCI p s = ciOccCount p s := by
  rw [reCountCI, ciOccCount]
  exact reCountAux_eq_occCountAt hbf (by simpa using hp) s.length
    (s.map lowerByte) (by simp)

/-- Every driver name of the fixed list is nonempty and border-free after
lower-casing, so its finditer count is the per-position count. -/
lemma drivers_reCount_eq {d : String} (hd : d ∈ drivers) (data : List Nat) :
    reCountCI (asciiBytes d) data = ciOccCount (asciiBytes d) data := by
  have h : borderFree ((asciiBytes d).map lowerByte) ∧ asciiBytes d ≠ [] := by
    fin_cases hd <;> exact ⟨by decide, by decide⟩
  exact reCountCI_eq_ciOccCount h.1 h.2 data

/-- C7.  find_signatures reports, for every driver name of the fixed list,
the number of case-insensitive occurrences of its byte sequence counted
independently at each start position (the fixed signature list is
overlap-free, so the scanning count of re.finditer coincides with the
per-position count), omitting drivers with zero occurrences; a buffer holding
ILI9341 twice in mixed case yields exactly the pair ILI9341 - 2. -/
theorem C7_driver_signature_counts :
    ∀ (data : List Nat) (d : String) (k : Nat),
      ((d, k) ∈ search_drivers data ↔
        d ∈ drivers ∧ k = ciOccCount (asciiBytes d) data ∧ 0 < k)
    ∧ search_drivers (asciiBytes "..ILI9341..ili9341..") = [("ILI9341", 2)] := by
  intro data d k
  refine ⟨?_, by decide⟩
  rw [search_drivers, List.mem_filterMap]
  constructor
  · rintro ⟨d2, hmem, hf⟩
    simp only at hf
    by_cases hc : 0 < reCountCI (asciiBytes d2) data
    · rw [if_pos hc] at hf
      simp only [Option.some.injEq, Prod.mk.injEq] at hf
      obtain ⟨rfl, rfl⟩ := hf
      exact ⟨hmem, drivers_reCount_eq hmem data, hc⟩
    · rw [if_neg hc] at hf
      exact absurd hf (by simp)
  · rintro ⟨hmem, rfl, hk⟩
    refine ⟨d, hmem, ?_⟩
    simp only
    rw [drivers_reCount_eq hmem data, if_pos hk]

/-- Printable ASCII byte, the regex class of search_strings. -/
def printable (b : Nat) : Bool := decide (0x20 ≤ b) && decide (b ≤ 0x7E)

/-- The scanning of re.findall over the printable-run regex: walk the buffer
keeping the current (reversed) printable run, emitting it when a
non-printable byte or the end of input closes it. -/
def runsAux : List Nat → List Nat → List (List Nat)
  | cur, [] => if cur = [] then [] else [cur.reverse]
  | cur, b :: t =>
    if printable b then runsAux (b :: cur) t
    else if cur = [] then runsAux [] t
    else cur.reverse :: runsAux [] t

/-- re.findall(b"[\x20-\x7e]\x7b4,\x7d", data): the maximal printable runs of
length at least 4, in scan order (the greedy regex always consumes a whole
maximal run, and runs shorter than 4 yield no match). -/
def findall_printable_runs (data : List Nat) : List (List Nat) :=
  (runsAux [] data).filter (fun r => 4 ≤ r.length)

/-- kw.lower() in s.lower(): case-insensitive substring test on bytes. -/
def ciSubstring (kw s : List Nat) : Bool :=
  (List.range (s.length + 1)).any fun i =>
    (kw.map lowerByte).isPrefixOf ((s.map lowerByte).drop i)

/-- Lexicographic comparison of byte strings, the order sorted() uses on the
decoded ASCII strings. -/
def lexLe : List Nat → List Nat → Bool
  | [], _ => true
  | _ :: _, [] => false
  | a :: ta, b :: tb => if a < b then true else if a = b then lexLe ta tb else false

/-- search_strings of analyze_tft_config.py: the printable runs of length at
least 4 that contain some keyword case-insensitively, deduplicated and
sorted (sorted(set(relevant)); the ascii decode never fails on printable
bytes, so the try/except filters nothing). -/
def search_strings (data : List Nat) (keywords : List (List Nat)) :
    List (List Nat) :=
  List.insertionSort (fun a b => lexLe a b = true)
    (((findall_printable_runs data).filter
        (fun s => keywords.any (fun kw => ciSubstring kw s))).dedup)

/-- What the spec calls a maximal run of printable bytes: a nonempty
all-printable segment of the buffer whose left neighbour (when any) and
right neighbour (when any) are not printable. -/
def IsMaxPrintableRun (data s : List Nat) : Prop :=
  s ≠ [] ∧ (∀ b ∈ s, printable b = true) ∧
  ∃ pre post, data = pre ++ s ++ post ∧
    (∀ b, pre.getLast? = some b → printable b = false) ∧
    (∀ b, post.head? = some b → printable b = false)

lemma mem_of_getLast?_eq {l : List Nat} {a : Nat} (h : l.getLast? = some a) :
    a ∈ l := by
  obtain ⟨hne, rfl⟩ := List.mem_getLast?_eq_getLast (by rw [Option.mem_def]; exact h)
  exact List.getLast_mem hne

lemma dropWhile_head_false {p : Nat → Bool} {l : List Nat} {c : Nat}
    {r : List Nat} (h : l.dropWhile p = c :: r) : p c = false := by
  have := List.head_dropWhile_not p l
  simp [h] at this
  exact this

/-- Scanning a printable block extends the current run. -/
lemma runsAux_printable_block : ∀ (p : List Nat) (cur t : List Nat),
    (∀ b ∈ p, printable b = true) →
    runsAux cur (p ++ t) = runsAux (p.reverse ++ cur) t := by
  intro p
  induction p with
  | nil => intro cur t _; simp
  | cons a p ih =>
    intro cur t hp
    rw [List.cons_append,
      show runsAux cur (a :: (p ++ t)) = runsAux (a :: cur) (p ++ t) from by
        simp only [runsAux, hp a (by simp), if_true],
      ih (a :: cur) t (fun b hb => hp b (by simp [hb]))]
    simp [List.append_assoc]

/-- An all-printable buffer is one single run (or none when empty). -/
lemma runsAux_nil_all (data : List Nat) (h : data.dropWhile printable = []) :
    runsAux [] data = if data = [] then [] else [data] := by
  have hall : ∀ b ∈ data, printable b = true := List.dropWhile_eq_nil_iff.mp h
  have h1 : runsAux [] data = runsAux (data.reverse ++ []) [] := by
    have := runsAux_printable_block data [] [] hall
    simpa using this
  rw [h1, List.append_nil]
  by_cases hd : data = []
  · simp [runsAux, hd]
  · have hrev : data.reverse ≠ [] := by simpa using hd
    simp [runsAux, hrev, hd]

/-- A buffer with a first non-printable byte decomposes as its leading run
(possibly empty) followed by the runs of the remainder. -/
lemma runsAux_nil_break (data : List Nat) (c : Nat) (t : List Nat)
    (h : data.dropWhile printable = c :: t) :
    runsAux [] data =
      (if data.takeWhile printable = [] then []
       else [data.takeWhile printable]) ++ runsAux [] t := by
  have hc : printable c = false := dropWhile_head_false h
  have hsplit : data = data.takeWhile printable ++ (c :: t) := by
    conv_lhs => rw [← List.takeWhile_append_dropWhile (p := printable) (l := data)]
    rw [h]
  have hallTW : ∀ b ∈ data.takeWhile printable, printable b = true :=
    fun b hb => List.mem_takeWhile_imp hb
  conv_lhs => rw [hsplit]
  rw [runsAux_printable_block _ [] _ hallTW, List.append_nil]
  by_cases htw : data.takeWhile printable = []
  · simp [runsAux, hc, htw]
  · have hrev : (data.takeWhile printable).reverse ≠ [] := by simpa using htw
    simp [runsAux, hc, htw, hrev]

/-- takeWhile over an all-true block followed by a failing head. -/
lemma takeWhile_all_append {p : Nat → Bool} : ∀ {s post : List Nat},
    (∀ b ∈ s, p b = true) → (∀ b, post.head? = some b → p b = false) →
    (s ++ post).takeWhile p = s := by
  intro s
  induction s with
  | nil =>
    intro post _ hpost
    cases post with
    | nil => rfl
    | cons c r =>
      simp only [List.nil_append, List.takeWhile_cons, hpost c rfl]
      rfl
  | cons a s ih =>
    intro post hs hpost
    simp only [List.cons_append, List.takeWhile_cons, hs a (by simp), if_true]
    rw [ih (fun b hb => hs b (by simp [hb])) hpost]

/-- takeWhile of an append whose left part contains a failing element. -/
lemma takeWhile_append_left {p : Nat → Bool} : ∀ {l r : List Nat},
    l.dropWhile p ≠ [] → (l ++ r).takeWhile p = l.takeWhile p := by
  intro l
  induction l with
  | nil => intro r h; exact absurd rfl h
  | cons a l ih =>
    intro r h
    by_cases hpa : p a = true
    · simp only [List.cons_append, List.takeWhile_cons, hpa, if_true]
      rw [ih (by simpa [List.dropWhile_cons, hpa] using h)]
    · simp only [List.cons_append, List.takeWhile_cons, hpa]
      rfl

/-- dropWhile of an append whose left part contains a failing element. -/
lemma dropWhile_append_left {p : Nat → Bool} : ∀ {l r : List Nat},
    l.dropWhile p ≠ [] → (l ++ r).dropWhile p = l.dropWhile p ++ r := by
  intro l
  induction l with
  | nil => intro r h; exact absurd rfl h
  | cons a l ih =>
    intro r h
    by_cases hpa : p a = true
    · simp only [List.cons_append, List.dropWhile_cons, hpa, if_true]
      exact ih (by simpa [List.dropWhile_cons, hpa] using h)
    · simp only [List.cons_append, List.dropWhile_cons, hpa]
      simp [hpa]

/-- The runs the scanner emits are exactly the maximal printable runs. -/
lemma mem_runsAux_iff : ∀ (n : Nat) (data : List Nat), data.length ≤ n →
    ∀ s : List Nat, (s ∈ runsAux [] data ↔ IsMaxPrintableRun data s) := by
  intro n
  induction n with
  | zero =>
    intro data hlen s
    have hd : data = [] := by
      cases data with
      | nil => rfl
      | cons b t => simp at hlen
    subst hd
    constructor
    · intro hs
      simp [runsAux] at hs
    · rintro ⟨hne, -, pre, post, hdata, -, -⟩
      have h2 := hdata.symm
      rw [List.append_eq_nil] at h2
      obtain ⟨h4, -⟩ := h2
      rw [List.append_eq_nil] at h4
      exact absurd h4.2 hne
  | succ n ih =>
    intro data hlen s
    cases hdw : data.dropWhile printable with
    | nil =>
      rw [runsAux_nil_all data hdw]
      have hall : ∀ b ∈ data, printable b = true := List.dropWhile_eq_nil_iff.mp hdw
      constructor
      · intro hs
        by_cases hd : data = []
        · rw [if_pos hd] at hs
          exact absurd hs (List.not_mem_nil s)
        · rw [if_neg hd] at hs
          have hseq : s = data := by simpa using hs
          subst hseq
          exact ⟨hd, hall, [], [], by simp, by simp, by simp⟩
      · rintro ⟨hne, hpr, pre, post, hdata, hpre, hpost⟩
        have hpre0 : pre = [] := by
          cases hpl : pre.getLast? with
          | none => exact List.getLast?_eq_none_iff.mp hpl
          | some bl =>
            have hmem : bl ∈ pre := mem_of_getLast?_eq hpl
            have hmem2 : bl ∈ data := by
              rw [hdata]
              simp [hmem]
            have hcontr := hpre bl hpl
            rw [hall bl hmem2] at hcontr
            exact absurd hcontr (by simp)
        have hpost0 : post = [] := by
          cases hpl : post.head? with
          | none => exact List.head?_eq_none_iff.mp hpl
          | some bh =>
            have hmem : bh ∈ post := List.mem_of_mem_head? (by rw [Option.mem_def]; exact hpl)
            have hmem2 : bh ∈ data := by
              rw [hdata]
              simp [hmem]
            have hcontr := hpost bh hpl
            rw [hall bh hmem2] at hcontr
            exact absurd hcontr (by simp)
        subst hpre0
        subst hpost0
        rw [List.nil_append, List.append_nil] at hdata
        subst hdata
        rw [if_neg hne]
        simp
    | cons c t =>
      rw [runsAux_nil_break data c t hdw]
      have hc : printable c = false := dropWhile_head_false hdw
      have hsplit : data = data.takeWhile printable ++ (c :: t) := by
        conv_lhs => rw [← List.takeWhile_append_dropWhile (p := printable) (l := data)]
        rw [hdw]
      have htlen : t.length ≤ n := by
        have h1 : (c :: t).length ≤ data.length := by
          rw [← hdw]
          exact (List.dropWhile_sublist printable).length_le
        simp only [List.length_cons] at h1
        omega
      have IH := ih t htlen
      rw [List.mem_append]
      constructor
      · rintro (hs1 | hs2)
        · by_cases htw : data.takeWhile printable = []
          · rw [if_pos htw] at hs1
            exact absurd hs1 (List.not_mem_nil s)
          · rw [if_neg htw] at hs1
            have hseq : s = data.takeWhile printable := by simpa using hs1
            subst hseq
            refine ⟨htw, fun b hb => List.mem_takeWhile_imp hb, [], c :: t,
              by simpa using hsplit, by simp, ?_⟩
            intro b hb
            simp only [List.head?_cons, Option.some.injEq] at hb
            rw [← hb]
            exact hc
        · obtain ⟨hne, hpr, pre, post, hdata_t, hpre, hpost⟩ := (IH s).mp hs2
          refine ⟨hne, hpr, data.takeWhile printable ++ c :: pre, post, ?_, ?_, hpost⟩
          · conv_lhs => rw [hsplit]
            rw [hdata_t]
            simp [List.append_assoc]
          · intro b hb
            rw [List.getLast?_append_of_ne_nil _ (List.cons_ne_nil c pre)] at hb
            cases pre with
            | nil =>
              simp only [List.getLast?_singleton, Option.some.injEq] at hb
              rw [← hb]
              exact hc
            | cons x xs =>
              rw [show c :: (x :: xs) = [c] ++ (x :: xs) from rfl,
                List.getLast?_append_of_ne_nil _ (List.cons_ne_nil x xs)] at hb
              exact hpre b hb
      · rintro ⟨hne, hpr, pre, post, hdata, hpre, hpost⟩
        by_cases hpre0 : pre = []
        · subst hpre0
          left
          have htws : data.takeWhile printable = s := by
            rw [hdata, List.nil_append]
            exact takeWhile_all_append hpr hpost
          rw [htws, if_neg hne]
          simp
        · right
          have hplast : ∃ bl, pre.getLast? = some bl := by
            cases hpl : pre.getLast? with
            | none => exact absurd (List.getLast?_eq_none_iff.mp hpl) hpre0
            | some bl => exact ⟨bl, rfl⟩
          obtain ⟨bl, hbl⟩ := hplast
          have hblf : printable bl = false := hpre bl hbl
          have hpdw : pre.dropWhile printable ≠ [] := by
            intro hnil
            have hall := List.dropWhile_eq_nil_iff.mp hnil
            rw [hall bl (mem_of_getLast?_eq hbl)] at hblf
            exact absurd hblf (by simp)
          have hdw_eq : data.dropWhile printable =
              pre.dropWhile printable ++ (s ++ post) := by
            rw [hdata, List.append_assoc]
            exact dropWhile_append_left hpdw
          cases hpdc : pre.dropWhile printable with
          | nil => exact absurd hpdc hpdw
          | cons c2 p2 =>
            have hct : c :: t = c2 :: (p2 ++ (s ++ post)) := by
              rw [← hdw, hdw_eq, hpdc]
              rfl
            obtain ⟨hc2, ht⟩ : c = c2 ∧ t = p2 ++ (s ++ post) := by
              injection hct with h1 h2
              exact ⟨h1, h2⟩
            apply (IH s).mpr
            refine ⟨hne, hpr, p2, post, by rw [ht, List.append_assoc], ?_, hpost⟩
            intro b hb
            have hp2ne : p2 ≠ [] := by
              intro h0
              rw [h0] at hb
              simp at hb
            have hpre_split : pre = pre.takeWhile printable ++ (c2 :: p2) := by
              conv_lhs => rw [← List.takeWhile_append_dropWhile (p := printable) (l := pre)]
              rw [hpdc]
            have hlast : pre.getLast? = some b := by
              rw [hpre_split, List.getLast?_append_of_ne_nil _ (List.cons_ne_nil c2 p2),
                show c2 :: p2 = [c2] ++ p2 from rfl,
                List.getLast?_append_of_ne_nil _ hp2ne]
              exact hb
            exact hpre b hlast

/-- The substring test of search_strings is the infix relation on
lower-cased bytes. -/
lemma ciSubstring_iff (kw s : List Nat) :
    ciSubstring kw s = true ↔ (kw.map lowerByte) <:+: (s.map lowerByte) := by
  rw [ciSubstring, List.any_eq_true]
  constructor
  · rintro ⟨i, -, hp⟩
    rw [List.isPrefixOf_iff_prefix] at hp
    exact List.infix_iff_prefix_suffix.mpr
      ⟨(s.map lowerByte).drop i, hp, List.drop_suffix i _⟩
  · intro hinf
    obtain ⟨t₁, t₂, ht⟩ := hinf
    refine ⟨t₁.length, ?_, ?_⟩
    · rw [List.mem_range]
      have hlen := congrArg List.length ht
      simp only [List.length_append, List.length_map] at hlen
      omega
    · rw [List.isPrefixOf_iff_prefix]
      have hdrop : (s.map lowerByte).drop t₁.length = (kw.map lowerByte) ++ t₂ := by
        rw [← ht, List.append_assoc, List.drop_left]
      rw [hdrop]
      exact List.prefix_append _ _

/-- C9.  find_strings returns exactly the deduplicated set of maximal runs of
printable ASCII bytes (0x20 - 0x7E) of length at least 4 that contain at
least one keyword case-insensitively as a substring; runs shorter than 4
bytes or without a keyword never appear, and the result holds no
duplicates. -/
theorem C9_keyword_string_extraction :
    ∀ (data : List Nat) (keywords : List (List Nat)),
      (∀ s : List Nat,
        s ∈ search_strings data keywords ↔
          IsMaxPrintableRun data s ∧ 4 ≤ s.length ∧
            ∃ kw ∈ keywords, (kw.map lowerByte) <:+: (s.map lowerByte))
      ∧ (search_strings data keywords).Nodup := by
  intro data kws
  constructor
  · intro s
    rw [search_strings, List.Perm.mem_iff (List.perm_insertionSort _ _),
      List.mem_dedup, List.mem_filter, findall_printable_runs, List.mem_filter,
      mem_runsAux_iff data.length data le_rfl s]
    constructor
    · rintro ⟨⟨h1, h2⟩, h3⟩
      refine ⟨h1, by simpa using h2, ?_⟩
      rw [List.any_eq_true] at h3
      obtain ⟨kw, hkw, hs⟩ := h3
      exact ⟨kw, hkw, (ciSubstring_iff kw s).mp hs⟩
    · rintro ⟨h1, h2, kw, hkw, hinf⟩
      refine ⟨⟨h1, by simpa using h2⟩, ?_⟩
      rw [List.any_eq_true]
      exact ⟨kw, hkw, (ciSubstring_iff kw s).mpr hinf⟩
  · exact ((List.perm_insertionSort _ _).nodup_iff).mpr (List.nodup_dedup _)

end FirmwareAnalysis
